import Mathlib

/-!
# Verification of the `television` preview subsystem

A shallow embedding of the string utilities in
`crates/television-utils/src/strings.rs` and of the file previewer
orchestration in `crates/television-previewers/src/previewers/files.rs`,
together with proofs of the specified properties.

Rust `&str` values are modelled as lists of bytes (`List Nat`, each < 256)
with an explicit UTF-8 validity predicate; Rust `String` outputs of the
sanitizer are modelled as lists of Unicode code points, with an explicit
UTF-8 encoder for re-examining their bytes.
-/

namespace Tv

/-- A UTF-8 continuation byte: `0x80 ≤ b < 0xC0`. -/
def contByte (b : Nat) : Bool := 0x80 ≤ b && b < 0xC0

/-- Lower bound of the first continuation byte after a three-byte lead
(`0xA0` after `0xE0`, to exclude overlong forms, else `0x80`). -/
def cont3lo (b : Nat) : Nat := if b = 0xE0 then 0xA0 else 0x80

/-- Upper bound of the first continuation byte after a three-byte lead
(`0x9F` after `0xED`, to exclude surrogates, else `0xBF`). -/
def cont3hi (b : Nat) : Nat := if b = 0xED then 0x9F else 0xBF

/-- Lower bound of the first continuation byte after a four-byte lead
(`0x90` after `0xF0`, to exclude overlong forms, else `0x80`). -/
def cont4lo (b : Nat) : Nat := if b = 0xF0 then 0x90 else 0x80

/-- Upper bound of the first continuation byte after a four-byte lead
(`0x8F` after `0xF4`, to stay at or below `U+10FFFF`, else `0xBF`). -/
def cont4hi (b : Nat) : Nat := if b = 0xF4 then 0x8F else 0xBF

/-- Decode one UTF-8 character at the front of a byte list, given the first
byte `b` and the remaining bytes `rest`.  Returns the decoded code point and
the number of bytes consumed from `rest` (total bytes = that + 1).
This models `std::str::from_utf8` applied to 1- to 4-byte prefixes, which is
exactly what `try_parse_utf8_char` in `strings.rs` does: strict UTF-8 with
no overlong forms, no surrogates, and a `U+10FFFF` ceiling. -/
def decodeFront (b : Nat) (rest : List Nat) : Option (Nat × Nat) :=
  if b ≤ 0x7F then some (b, 0)
  else if 0xC2 ≤ b && b ≤ 0xDF then
    match rest with
    | c :: _ =>
      if contByte c then some ((b - 0xC0) * 64 + (c - 0x80), 1) else none
    | [] => none
  else if 0xE0 ≤ b && b ≤ 0xEF then
    match rest with
    | c :: d :: _ =>
      if cont3lo b ≤ c && c ≤ cont3hi b && contByte d then
        some ((b - 0xE0) * 4096 + (c - 0x80) * 64 + (d - 0x80), 2)
      else none
    | _ => none
  else if 0xF0 ≤ b && b ≤ 0xF4 then
    match rest with
    | c :: d :: e :: _ =>
      if cont4lo b ≤ c && c ≤ cont4hi b && contByte d && contByte e then
        some ((b - 0xF0) * 262144 + (c - 0x80) * 4096 + (d - 0x80) * 64
              + (e - 0x80), 3)
      else none
    | _ => none
  else none

/-- A byte within the three-byte first-continuation range is a continuation
byte. -/
theorem cont3_contByte (b c : Nat) (hlo : cont3lo b ≤ c)
    (hhi : c ≤ cont3hi b) : contByte c = true := by
  unfold cont3lo at hlo
  unfold cont3hi at hhi
  simp only [contByte, Bool.and_eq_true, decide_eq_true_eq]
  split_ifs at hlo hhi <;> omega

/-- A byte within the four-byte first-continuation range is a continuation
byte. -/
theorem cont4_contByte (b c : Nat) (hlo : cont4lo b ≤ c)
    (hhi : c ≤ cont4hi b) : contByte c = true := by
  unfold cont4lo at hlo
  unfold cont4hi at hhi
  simp only [contByte, Bool.and_eq_true, decide_eq_true_eq]
  split_ifs at hlo hhi <;> omega

/-- Fuel-indexed worker for `validUtf8`.  Any fuel at or above the byte
count gives the untruncated result; the fuel only serves structural
recursion (each decoded character consumes at least one byte). -/
def validUtf8F : Nat → List Nat → Bool
  | 0, l => l.isEmpty
  | _ + 1, [] => true
  | fuel + 1, b :: rest =>
    match decodeFront b rest with
    | some (_, k) => validUtf8F fuel (rest.drop k)
    | none => false

/-- Whole-list UTF-8 validity: the byte list decomposes into a sequence of
valid UTF-8 character encodings. -/
def validUtf8 (l : List Nat) : Bool := validUtf8F l.length l

/-- Model of Rust's `str::is_char_boundary`: true at 0 and at the length,
true inside the string iff the byte there is not a continuation byte,
false past the end. -/
def isCharBoundary (s : List Nat) (i : Nat) : Bool :=
  if i = 0 then true
  else
    match s.get? i with
    | some b => !contByte b
    | none => i = s.length

/-- Fuel-indexed loop body of `next_char_boundary` (`strings.rs:26`):
advance while the index is not a character boundary and still below the
length.  Fuel `s.length - i` always suffices. -/
def ncbF : Nat → List Nat → Nat → Nat
  | 0, _, i => i
  | fuel + 1, s, i =>
    if !isCharBoundary s i && i < s.length then ncbF fuel s (i + 1) else i

/-- `next_char_boundary` from `strings.rs`: clamp indices past the end to the
length, otherwise scan forward to the next boundary. -/
def next_char_boundary (s : List Nat) (start : Nat) : Nat :=
  if start ≥ s.length then s.length else ncbF (s.length - start) s start

/-- Fuel-indexed loop body of `prev_char_boundary` (`strings.rs:57`):
retreat while the index is not a character boundary and still positive.
Fuel `i` always suffices. -/
def pcbF : Nat → List Nat → Nat → Nat
  | 0, _, i => i
  | fuel + 1, s, i =>
    if !isCharBoundary s i && 0 < i then pcbF fuel s (i - 1) else i

/-- `prev_char_boundary` from `strings.rs`. -/
def prev_char_boundary (s : List Nat) (start : Nat) : Nat :=
  pcbF start s start

/-- Model of a Rust byte-range slice `&s[a..b]` on a `&str`: Rust panics
unless `a ≤ b ≤ s.len()` and both ends are character boundaries, which the
model expresses by returning `none` (the panic) in that case. -/
def rustSlice (s : List Nat) (a b : Nat) : Option (List Nat) :=
  if a ≤ b && b ≤ s.length && isCharBoundary s a && isCharBoundary s b then
    some ((s.take b).drop a)
  else
    none

/-- `slice_at_char_boundaries` from `strings.rs:83`, including the raw slice
it performs (a `none` result would be a panic of the Rust source). -/
def slice_at_char_boundaries (s : List Nat) (a b : Nat) :
    Option (List Nat) :=
  if a > b || a > s.length || b > s.length then
    some []
  else
    rustSlice s (prev_char_boundary s a) (next_char_boundary s b)

/-- `slice_up_to_char_boundary` from `strings.rs:119`:
`&s[..next_char_boundary(s, i)]`. -/
def slice_up_to_char_boundary (s : List Nat) (i : Nat) : List Nat :=
  s.take (next_char_boundary s i)

/-- Uppercase hexadecimal digit, as a code point (`{:02X}` formatting). -/
def hexDigit (d : Nat) : Nat := if d < 10 then 0x30 + d else 0x41 + (d - 10)

/-- The code points of the `\xHH` escape `replace_non_printable` emits for a
byte that is not part of any valid UTF-8 sequence (`strings.rs:219`). -/
def escBytes (b : Nat) : List Nat :=
  [0x5C, 0x78, hexDigit (b / 16), hexDigit (b % 16)]

/-- The code points `replace_non_printable` pushes for one decoded character
`c`, following the `match` arms at `strings.rs:193`: space unchanged, tab
expands to `tab_width` spaces, line feed dropped, the control ranges
`0x00–0x1F` and `0x7F–0x9F` become `U+2400`, the BOM is dropped, anything
above `U+0700` becomes `U+2400`, everything else passes through. -/
def charOut (c : Nat) (tabWidth : Nat) : List Nat :=
  if c = 0x20 then [0x20]
  else if c = 0x09 then List.replicate tabWidth 0x20
  else if c = 0x0A then []
  else if c ≤ 0x1F || (0x7F ≤ c && c ≤ 0x9F) then [0x2400]
  else if c = 0xFEFF then []
  else if 0x700 < c then [0x2400]
  else [c]

/-- Fuel-indexed worker for `replace_non_printable`; any fuel at or above
the byte count gives the untruncated result. -/
def rnpF : Nat → List Nat → Nat → List Nat
  | 0, _, _ => []
  | _ + 1, [], _ => []
  | fuel + 1, b :: rest, tabWidth =>
    match decodeFront b rest with
    | some (c, k) => charOut c tabWidth ++ rnpF fuel (rest.drop k) tabWidth
    | none => escBytes b ++ rnpF fuel rest tabWidth

/-- `replace_non_printable` from `strings.rs:184`, producing the output
string as a list of code points.  At each position it decodes one UTF-8
character (`try_parse_utf8_char`) and maps it through the `match` arms, or
emits a `\xHH` escape and advances one byte when decoding fails. -/
def replace_non_printable (input : List Nat) (tabWidth : Nat) : List Nat :=
  rnpF input.length input tabWidth

/-- UTF-8 encoding of one code point, for re-reading sanitizer output as
bytes (Rust `String::as_bytes`). -/
def utf8EncodeChar (c : Nat) : List Nat :=
  if c < 0x80 then [c]
  else if c < 0x800 then [0xC0 + c / 64, 0x80 + c % 64]
  else if c < 0x10000 then
    [0xE0 + c / 4096, 0x80 + c / 64 % 64, 0x80 + c % 64]
  else
    [0xF0 + c / 262144, 0x80 + c / 4096 % 64, 0x80 + c / 64 % 64,
     0x80 + c % 64]

/-- The bytes of a string given as a list of code points. -/
def strBytes (cs : List Nat) : List Nat := (cs.map utf8EncodeChar).flatten

/-- Model of an `f32` value as far as this code can observe it: a NaN flag
plus an exact rational value (rounding of an exact quotient to the nearest
`f32` is abstracted away; the NaN flag is exact). -/
structure RustF32 where
  isNaN : Bool
  val : ℚ
deriving DecidableEq, Repr

/-- IEEE division `a / b` for the only shapes `strings.rs` produces,
`0 ≤ a ≤ b` natural: `0.0 / 0.0` is NaN, otherwise the (exact) quotient. -/
def f32div (a b : Nat) : RustF32 :=
  if b = 0 then ⟨true, 0⟩ else ⟨false, (a : ℚ) / (b : ℚ)⟩

/-- The printable-ASCII test `(32..127).contains(&byte)`. -/
def printableAscii (b : Nat) : Bool := 32 ≤ b && b < 127

/-- `proportion_of_printable_ascii_characters` from `strings.rs:253`:
count of printable bytes divided (as `f32`) by the total byte count,
with no guard on an empty buffer. -/
def proportion_of_printable_ascii_characters (buffer : List Nat) : RustF32 :=
  f32div (buffer.countP printableAscii) buffer.length

/-- `PRINTABLE_ASCII_THRESHOLD` (`strings.rs:231`). -/
def PRINTABLE_ASCII_THRESHOLD : ℚ := 7 / 10

/-- `MAX_LINE_LENGTH` (`strings.rs:263`). -/
def MAX_LINE_LENGTH : Nat := 300

/-- `TAB_WIDTH` (`strings.rs:144`). -/
def TAB_WIDTH : Nat := 4

/-- `str::trim_end_matches(['\r', '\n', '\0'])` on the byte level: strip
trailing `0x0D`, `0x0A` and `0x00` bytes.  (These characters are one byte
in UTF-8 and below `0x80`, so on a valid string the byte-level and
character-level operations agree.) -/
def trimEndCrLfNul (s : List Nat) : List Nat :=
  (s.reverse.dropWhile (fun b => b = 0x0D || b = 0x0A || b = 0x00)).reverse

/-- `preprocess_line` from `strings.rs:286`: truncate at
`MAX_LINE_LENGTH` (boundary-safe) when longer, strip trailing
`\r`/`\n`/`\0`, then sanitize with `TAB_WIDTH`.  The result is the output
string as code points. -/
def preprocess_line (line : List Nat) : List Nat :=
  replace_non_printable
    (trimEndCrLfNul
      (if line.length > MAX_LINE_LENGTH then
        slice_up_to_char_boundary line MAX_LINE_LENGTH
      else
        line))
    TAB_WIDTH

/-!
## The file previewer (`files.rs`)

`FilePreviewer::preview` and its background highlighting task.  `Preview`
and the `meta` constructors, and the `PreviewCache` `get`/`insert`
contract, live in repository files outside the available sources and are
modelled from the spec where noted.  Filesystem and highlighter behaviour
for one path is abstracted into an `FsEntry` record of the outcomes the
orchestrator can observe.
-/

/-- Modelled from the spec: the `PreviewContent` variants of §3 (the
`television-previewers` `Preview`/`PreviewContent` definitions are not
among the available sources).  Styled highlighted lines are abstracted to
their text content. -/
inductive PreviewContent where
  | plainText (lines : List (List Nat))
  | syntectHighlightedText (lines : List (List Nat))
  | loading
  | notSupported
  | fileTooLarge
deriving DecidableEq, Repr

/-- Modelled from the spec: a `Preview` is an immutable value carrying the
entry title and a `PreviewContent` (§3). -/
structure Preview where
  title : String
  content : PreviewContent
deriving DecidableEq, Repr

/-- A preview is terminal when it is not the `Loading` sentinel (§4.5:
`TooLarge`, `NotSupported`, plain and highlighted text are terminal). -/
def Preview.isTerminal (p : Preview) : Bool :=
  p.content ≠ PreviewContent.loading

/-- Modelled from the spec: `meta::loading` builds the `Loading` sentinel
preview for a name. -/
def loadingPreview (name : String) : Preview :=
  ⟨name, PreviewContent.loading⟩

/-- Modelled from the spec: `meta::not_supported`. -/
def notSupportedPreview (name : String) : Preview :=
  ⟨name, PreviewContent.notSupported⟩

/-- Modelled from the spec: `meta::file_too_large`. -/
def fileTooLargePreview (name : String) : Preview :=
  ⟨name, PreviewContent.fileTooLarge⟩

/-- Modelled from the spec: the `PreviewCache` of §4.4, a map from entry
name to shared `Preview` where `insert` is an unconditional upsert ("the
latest insert wins") and `get` a lookup.  Inserts prepend; lookups take the
most recent insert. -/
abbrev PreviewCache := List (String × Preview)

/-- Modelled from the spec: `PreviewCache::get`. -/
def cacheGet (c : PreviewCache) (k : String) : Option Preview :=
  match c with
  | [] => none
  | (k', v) :: rest => if k' = k then some v else cacheGet rest k

/-- Modelled from the spec: `PreviewCache::insert` (upsert; the newest
binding shadows older ones). -/
def cacheInsert (c : PreviewCache) (k : String) (v : Preview) :
    PreviewCache :=
  (k, v) :: c

/-- `FileType` from `television-utils::files`, as matched in
`files.rs::get_file_type`. -/
inductive FileType where
  | text
  | image
  | other
  | unknown
deriving DecidableEq, Repr

/-- Outcome of the `infer::get_from_path` content sniffing in
`get_file_type`: a detected mime type bucketed by the source's
`contains("image")` / `contains("text")` tests, or no determination. -/
inductive Sniff where
  | image
  | text
  | other
  | unknown
deriving DecidableEq, Repr

/-- Everything the orchestrator can observe about one path: the outcomes of
the filesystem and highlighter calls `preview` makes.  The highlighter is a
black box (`syntax::compute_highlights_for_path`), abstracted as a function
from the collected lines to a result. -/
structure FsEntry where
  /-- `get_file_size` result; `none` is an error. -/
  size : Option Nat
  /-- content sniffing outcome. -/
  sniff : Sniff
  /-- `is_known_text_extension`. -/
  knownTextExt : Bool
  /-- first-256-byte sample read in `get_file_type`; `none` is an
  open/read failure there. -/
  sampleRead : Option (List Nat)
  /-- whether `File::open` succeeds in `preview`. -/
  openOk : Bool
  /-- whether `reader.seek(SeekFrom::Start(0))` succeeds. -/
  seekOk : Bool
  /-- results of `reader.lines()`: each line's bytes or a read error. -/
  readResults : List (Except Unit (List Nat))
  /-- the highlighter on given preprocessed lines: highlighted lines or a
  `HighlightError`. -/
  highlight : List (List Nat) → Except Unit (List (List Nat))

/-- `MAX_FILE_SIZE` (`files.rs:230`): 4 MiB. -/
def MAX_FILE_SIZE : Nat := 4 * 1024 * 1024

/-- `get_file_type` from `files.rs:232`: sniff first; if unknown, fall back
to the extension table, then to the printable-ASCII ratio of a first
sample. -/
def getFileType (fs : FsEntry) : FileType :=
  let ft :=
    match fs.sniff with
    | Sniff.image => FileType.image
    | Sniff.text => FileType.text
    | Sniff.other => FileType.other
    | Sniff.unknown => FileType.unknown
  if ft = FileType.unknown then
    if fs.knownTextExt then FileType.text
    else
      match fs.sampleRead with
      | some buf =>
        if 0 < buf.length &&
            PRINTABLE_ASCII_THRESHOLD <
              (proportion_of_printable_ascii_characters buf).val then
          FileType.text
        else FileType.unknown
      | none => FileType.unknown
  else ft

/-- `lines().map_while(Result::ok)` over the reader results followed by the
per-line `preprocess_line(&line) + "\n"` mapping of
`compute_highlighted_text_preview` (`files.rs:189`): collection stops
silently at the first read error. -/
def collectLines : List (Except Unit (List Nat)) → List (List Nat)
  | [] => []
  | Except.ok l :: rest => (preprocess_line l ++ [0x0A]) :: collectLines rest
  | Except.error _ :: _ => []

/-- The terminal preview the background task of
`compute_highlighted_text_preview` inserts: highlighted text on success,
`not_supported` on a highlighter error (`files.rs:197`). -/
def taskResult (fs : FsEntry) (name : String) : Preview :=
  match fs.highlight (collectLines fs.readResults) with
  | Except.ok hl => ⟨name, PreviewContent.syntectHighlightedText hl⟩
  | Except.error _ => notSupportedPreview name

/-- Running the spawned background task to completion: one cache insert of
`taskResult` (`files.rs:208` and `files.rs:222`). -/
def runTask (fs : FsEntry) (name : String) (cache : PreviewCache) :
    PreviewCache :=
  cacheInsert cache name (taskResult fs name)

/-- The part of `preview` after its cache lookup missed (`files.rs:86`
onward): size gate, classification, and the per-type branches.  Returns
the preview handed back, the updated cache, and the name of a spawned
background task if any; `none` models the `unwrap` panic on a failed
seek (`files.rs:111`), which fires after the `Loading` insert. -/
def finishPreview (fs : FsEntry) (name : String) (cache : PreviewCache) :
    Option (Preview × PreviewCache × Option String) :=
  if (fs.size.map (fun s => decide (MAX_FILE_SIZE < s))).getD false then
    let p := fileTooLargePreview name
    some (p, cacheInsert cache name p, none)
  else
    match getFileType fs with
    | FileType.text =>
      if fs.openOk then
        let p := loadingPreview name
        let cache' := cacheInsert cache name p
        if fs.seekOk then some (p, cache', some name) else none
      else
        let p := notSupportedPreview name
        some (p, cacheInsert cache name p, none)
    | _ =>
      let p := notSupportedPreview name
      some (p, cacheInsert cache name p, none)

/-- `FilePreviewer::preview` (`files.rs:76`): a cache hit returns the cached
preview unchanged; a miss runs `finishPreview`. -/
def preview (fs : FsEntry) (name : String) (cache : PreviewCache) :
    Option (Preview × PreviewCache × Option String) :=
  match cacheGet cache name with
  | some p => some (p, cache, none)
  | none => finishPreview fs name cache

/-!
## Interleaved executions

`preview` acquires the cache lock separately for its initial lookup
(`files.rs:80`) and for each later insert (`files.rs:271`), and the spawned
background tasks acquire it again to store their result.  A system state
tracks the cache, the pending background tasks, and the progress of the (at
most one, since `preview` takes `&mut self`) in-flight `preview` call that
has observed a miss but not yet finished.  Each `Step` is one atomic
critical section of the source, so task completions interleave freely with
the two halves of a `preview` call.
-/

/-- Global state of one `FilePreviewer`: the cache, the names whose
background highlight tasks have been spawned but not completed, and the
in-flight `preview` call that has observed a miss (`none` when no call is
between its lookup and its conclusion). -/
structure Sys where
  cache : PreviewCache
  tasks : List String
  inflight : Option String

/-- The initial state: empty cache, no tasks, no in-flight call. -/
def initSys : Sys := ⟨[], [], none⟩

/-- One atomic step of the previewer system.  The filesystem `fsOf` assigns
each name its (fixed) observable behaviour. -/
inductive Step (fsOf : String → FsEntry) : Sys → Sys → Prop where
  /-- A `preview` call whose lookup hits returns the cached value and
  changes nothing (`files.rs:80`). -/
  | previewHit (s : Sys) (n : String) (p : Preview)
      (hfree : s.inflight = none) (hget : cacheGet s.cache n = some p) :
      Step fsOf s s
  /-- A `preview` call whose lookup misses; the lock is released with the
  call still in flight. -/
  | previewMiss (s : Sys) (n : String)
      (hfree : s.inflight = none) (hget : cacheGet s.cache n = none) :
      Step fsOf s ⟨s.cache, s.tasks, some n⟩
  /-- The in-flight call finishes: size gate, classification, insert, and
  possible spawn, per `finishPreview`.  (A `none` result of
  `finishPreview` is the seek panic; the system has no step there.) -/
  | previewFinish (s : Sys) (n : String) (p : Preview)
      (c' : PreviewCache) (t : Option String)
      (hin : s.inflight = some n)
      (hfin : finishPreview (fsOf n) n s.cache = some (p, c', t)) :
      Step fsOf s ⟨c', (t.toList) ++ s.tasks, none⟩
  /-- A pending background task completes and stores its terminal result
  (`files.rs:208`/`files.rs:222`). -/
  | taskDone (s : Sys) (n : String)
      (hmem : n ∈ s.tasks) :
      Step fsOf s ⟨runTask (fsOf n) n s.cache, s.tasks.erase n, s.inflight⟩

/-- States reachable from the initial state. -/
inductive Reach (fsOf : String → FsEntry) : Sys → Prop where
  | init : Reach fsOf initSys
  | step (s s' : Sys) (h : Reach fsOf s) (hs : Step fsOf s s') :
      Reach fsOf s'

/-- The inductive invariant of the previewer system:
every pending task's slot holds the `Loading` sentinel, pending tasks are
pairwise distinct, and an in-flight call's name is uncached with no pending
task. -/
def SysInv (s : Sys) : Prop :=
  (∀ n ∈ s.tasks, cacheGet s.cache n = some (loadingPreview n)) ∧
  s.tasks.Nodup ∧
  (∀ n, s.inflight = some n →
    cacheGet s.cache n = none ∧ n ∉ s.tasks)

/-!
## Cache and orchestrator lemmas
-/

theorem cacheGet_insert_self (c : PreviewCache) (k : String) (v : Preview) :
    cacheGet (cacheInsert c k v) k = some v := by
  simp [cacheGet, cacheInsert]

theorem cacheGet_insert_ne (c : PreviewCache) (k k' : String) (v : Preview)
    (h : k ≠ k') : cacheGet (cacheInsert c k v) k' = cacheGet c k' := by
  simp [cacheGet, cacheInsert, h]

/-- Every successful `finishPreview` result inserts exactly the returned
preview for the requested name, and spawns a task only in the text branch,
where the returned preview is the `Loading` sentinel; every other returned
preview is terminal. -/
theorem finishPreview_spec (fs : FsEntry) (n : String) (cache : PreviewCache)
    (p : Preview) (c' : PreviewCache) (t : Option String)
    (h : finishPreview fs n cache = some (p, c', t)) :
    c' = cacheInsert cache n p ∧
    ((t = none ∧ p.isTerminal = true) ∨
     (t = some n ∧ p = loadingPreview n)) := by
  unfold finishPreview at h
  split at h
  · obtain ⟨rfl, rfl, rfl⟩ : fileTooLargePreview n = p ∧ _ := by
      simpa using h
    exact ⟨rfl, Or.inl ⟨rfl, rfl⟩⟩
  · split at h
    · split at h
      · split at h
        · obtain ⟨rfl, rfl, rfl⟩ : loadingPreview n = p ∧ _ := by
            simpa using h
          exact ⟨rfl, Or.inr ⟨rfl, rfl⟩⟩
        · exact absurd h (by simp)
      · obtain ⟨rfl, rfl, rfl⟩ : notSupportedPreview n = p ∧ _ := by
          simpa using h
        exact ⟨rfl, Or.inl ⟨rfl, rfl⟩⟩
    · obtain ⟨rfl, rfl, rfl⟩ : notSupportedPreview n = p ∧ _ := by
        simpa using h
      exact ⟨rfl, Or.inl ⟨rfl, rfl⟩⟩

theorem sysInv_init : SysInv initSys := by
  refine ⟨?_, ?_, ?_⟩ <;> simp [initSys, SysInv]

/-- The system invariant is preserved by every step. -/
theorem sysInv_step (fsOf : String → FsEntry) (s s' : Sys)
    (hinv : SysInv s) (h : Step fsOf s s') : SysInv s' := by
  obtain ⟨ha, hb, hc⟩ := hinv
  cases h with
  | previewHit n p hfree hget => exact ⟨ha, hb, hc⟩
  | previewMiss n hfree hget =>
    refine ⟨ha, hb, ?_⟩
    intro m hm
    have hnm : n = m := by simpa using hm
    subst hnm
    refine ⟨hget, fun hmem => ?_⟩
    rw [ha n hmem] at hget
    exact Option.noConfusion hget
  | previewFinish n p c' t hin hfin =>
    obtain ⟨hgn, hnt⟩ := hc n hin
    obtain ⟨rfl, hcase⟩ := finishPreview_spec _ _ _ _ _ _ hfin
    rcases hcase with ⟨rfl, hterm⟩ | ⟨rfl, rfl⟩
    · refine ⟨?_, by simpa using hb, by simp⟩
      intro m hm
      simp only [Option.toList_none, List.nil_append] at hm
      have hne : n ≠ m := fun he => hnt (he ▸ hm)
      rw [cacheGet_insert_ne _ _ _ _ hne]
      exact ha m hm
    · refine ⟨?_, ?_, by simp⟩
      · intro m hm
        simp only [Option.toList_some, List.singleton_append,
          List.mem_cons] at hm
        rcases hm with rfl | hm
        · exact cacheGet_insert_self _ _ _
        · have hne : n ≠ m := fun he => hnt (he ▸ hm)
          rw [cacheGet_insert_ne _ _ _ _ hne]
          exact ha m hm
      · simpa using ⟨hnt, hb⟩
  | taskDone n hmem =>
    refine ⟨?_, hb.erase n, ?_⟩
    · intro m hm
      have hmm : m ≠ n ∧ m ∈ s.tasks := (hb.mem_erase_iff).mp hm
      rw [runTask, cacheGet_insert_ne _ _ _ _ (Ne.symm hmm.1)]
      exact ha m hmm.2
    · intro m hm
      obtain ⟨hgm, hmt⟩ := hc m hm
      have hne : n ≠ m := by
        intro he
        subst he
        rw [ha n hmem] at hgm
        exact Option.noConfusion hgm
      refine ⟨?_, fun hmem' => hmt (List.mem_of_mem_erase hmem')⟩
      rw [runTask, cacheGet_insert_ne _ _ _ _ hne]
      exact hgm

/-- Every reachable state satisfies the invariant. -/
theorem reach_sysInv (fsOf : String → FsEntry) (s : Sys)
    (h : Reach fsOf s) : SysInv s := by
  induction h with
  | init => exact sysInv_init
  | step s s' _ hs ih => exact sysInv_step fsOf s s' ih hs

/-!
## Concrete filesystem fixtures
-/

/-- A small cold text file: sniffed as text, open and seek succeed, one
line of content, highlighter succeeds. -/
def coldTextFs : FsEntry :=
  ⟨some 10, Sniff.text, false, none, true, true, [Except.ok [104, 105]],
   fun ls => Except.ok ls⟩

/-- Like `coldTextFs`, but the seek after a successful open fails. -/
def seekFailFs : FsEntry :=
  ⟨some 10, Sniff.text, false, none, true, false, [], fun ls => Except.ok ls⟩

/-- A file over the 4 MiB size ceiling. -/
def bigFileFs : FsEntry :=
  ⟨some (5 * 1024 * 1024), Sniff.unknown, false, none, true, true, [],
   fun ls => Except.ok ls⟩

/-- A text file whose highlighter always fails. -/
def hlFailFs : FsEntry :=
  ⟨some 10, Sniff.text, false, none, true, true, [Except.ok [104, 105]],
   fun _ => Except.error ()⟩

/-- `finishPreview` succeeds (no panic) whenever the seek succeeds. -/
theorem finishPreview_total (fs : FsEntry) (n : String)
    (cache : PreviewCache) (hseek : fs.seekOk = true) :
    ∃ r, finishPreview fs n cache = some r := by
  unfold finishPreview
  split
  · exact ⟨_, rfl⟩
  · split
    · split
      · simp only [hseek, if_true]
        exact ⟨_, rfl⟩
      · exact ⟨_, rfl⟩
    · exact ⟨_, rfl⟩

/-!
## Claim theorems: previewer
-/

/-- **C7**: when the background highlight computation completes, it
overwrites the entry's cache slot with a terminal preview — in particular a
highlighter error replaces the `Loading` sentinel with `NotSupported` — so
no identifier whose computation completes is left in `Loading`. -/
theorem background_task_overwrites_loading (fs : FsEntry) (n : String)
    (cache : PreviewCache) :
    cacheGet (runTask fs n cache) n = some (taskResult fs n) ∧
    (taskResult fs n).isTerminal = true ∧
    cacheGet (runTask fs n cache) n ≠ some (loadingPreview n) ∧
    (fs.highlight (collectLines fs.readResults) = Except.error () →
      taskResult fs n = notSupportedPreview n) := by
  have hterm : (taskResult fs n).isTerminal = true := by
    unfold taskResult
    rcases fs.highlight (collectLines fs.readResults) with e | hl <;>
      simp [Preview.isTerminal, notSupportedPreview]
  refine ⟨cacheGet_insert_self _ _ _, hterm, ?_, ?_⟩
  · rw [runTask, cacheGet_insert_self]
    intro heq
    have : taskResult fs n = loadingPreview n := by
      exact Option.some.inj heq
    rw [this] at hterm
    simp [Preview.isTerminal, loadingPreview] at hterm
  · intro h
    unfold taskResult
    rw [h]

theorem background_task_overwrites_loading_witness :
    cacheGet (runTask hlFailFs "e" (cacheInsert [] "e" (loadingPreview "e")))
        "e" = some (taskResult hlFailFs "e") ∧
    (taskResult hlFailFs "e").isTerminal = true ∧
    cacheGet (runTask hlFailFs "e" (cacheInsert [] "e" (loadingPreview "e")))
        "e" ≠ some (loadingPreview "e") ∧
    (hlFailFs.highlight (collectLines hlFailFs.readResults) =
        Except.error () →
      taskResult hlFailFs "e" = notSupportedPreview "e") :=
  background_task_overwrites_loading hlFailFs "e"
    (cacheInsert [] "e" (loadingPreview "e"))

/-- **C2 counterexample**: the claim says `preview` never panics, but the
source unwraps the result of seeking the just-opened reader
(`files.rs:111`, documented `# Panics`): on a text entry whose open
succeeds and whose seek fails, `preview` panics (modelled as `none`). -/
theorem preview_seek_panic : preview seekFailFs "e" [] = none := by decide

/-- **C2 (amended)**: whenever the seek after open succeeds, `preview`
returns without panicking; a file-open failure on a text entry (past the
size gate) yields a cached terminal `NotSupported`; a highlighter error
makes the background task cache `NotSupported`; and a read error during
line collection silently truncates the collected lines (it does not
produce `NotSupported`). -/
theorem preview_error_handling (fs : FsEntry) (n : String)
    (cache : PreviewCache) (hseek : fs.seekOk = true) :
    (∃ r, preview fs n cache = some r) ∧
    (cacheGet cache n = none →
      (fs.size.map (fun sz => decide (MAX_FILE_SIZE < sz))).getD false =
        false →
      getFileType fs = FileType.text → fs.openOk = false →
      preview fs n cache =
        some (notSupportedPreview n,
          cacheInsert cache n (notSupportedPreview n), none)) ∧
    (fs.highlight (collectLines fs.readResults) = Except.error () →
      taskResult fs n = notSupportedPreview n) ∧
    (∀ rs, collectLines (Except.error () :: rs) = []) := by
  refine ⟨?_, ?_, ?_, fun rs => rfl⟩
  · unfold preview
    cases hg : cacheGet cache n with
    | some p => exact ⟨_, rfl⟩
    | none => exact finishPreview_total fs n cache hseek
  · intro hg hsize hft hopen
    unfold preview
    rw [hg]
    unfold finishPreview
    rw [hsize, hft]
    simp [hopen]
  · intro h
    unfold taskResult
    rw [h]

theorem preview_error_handling_witness :
    hlFailFs.seekOk = true ∧
    ((∃ r, preview hlFailFs "e" [] = some r) ∧
     (cacheGet ([] : PreviewCache) "e" = none →
       (hlFailFs.size.map
          (fun sz => decide (MAX_FILE_SIZE < sz))).getD false = false →
       getFileType hlFailFs = FileType.text → hlFailFs.openOk = false →
       preview hlFailFs "e" [] =
         some (notSupportedPreview "e",
           cacheInsert [] "e" (notSupportedPreview "e"), none)) ∧
     (hlFailFs.highlight (collectLines hlFailFs.readResults) =
         Except.error () →
       taskResult hlFailFs "e" = notSupportedPreview "e") ∧
     (∀ rs, collectLines (Except.error () :: rs) = [])) :=
  ⟨by decide, preview_error_handling hlFailFs "e" [] (by decide)⟩


/-- **C1 counterexample**: the lookup (`files.rs:80`) and the `Loading`
insert (`files.rs:103`, via `cache_preview`, `files.rs:271`) are two
separate lock acquisitions, not one atomic unit: two `preview` calls for
the same cold text entry can both perform their lookup on the same cache
state and miss (first conjunct), after which each call's continuation
(`finishPreview`) inserts `Loading` and spawns a background computation
(`some "e"` twice) — the second continuation spawns even though the
`Loading` sentinel is already cached, because nothing re-checks after the
initial miss. -/
theorem preview_lookup_insert_not_atomic :
    cacheGet ([] : PreviewCache) "e" = none ∧
    finishPreview coldTextFs "e" [] =
      some (loadingPreview "e", [("e", loadingPreview "e")], some "e") ∧
    finishPreview coldTextFs "e" [("e", loadingPreview "e")] =
      some (loadingPreview "e",
        [("e", loadingPreview "e"), ("e", loadingPreview "e")],
        some "e") := by
  refine ⟨rfl, by decide, by decide⟩

/-- **C1 (amended)**: the lookup and the `Loading` insert are separate
critical sections, but `preview` takes the previewer by `&mut`, so two
calls in rapid succession are serialized: the first call on a cold text
entry caches `Loading` and spawns one background computation, and the
second call is satisfied by the cached `Loading` sentinel and spawns
nothing — exactly one computation is started. -/
theorem preview_dedup_serialized (fs : FsEntry) (n : String)
    (hsize :
      (fs.size.map (fun sz => decide (MAX_FILE_SIZE < sz))).getD false =
        false)
    (hft : getFileType fs = FileType.text)
    (hopen : fs.openOk = true) (hseek : fs.seekOk = true) :
    preview fs n [] =
      some (loadingPreview n, cacheInsert [] n (loadingPreview n), some n) ∧
    preview fs n (cacheInsert [] n (loadingPreview n)) =
      some (loadingPreview n, cacheInsert [] n (loadingPreview n), none) := by
  constructor
  · show finishPreview fs n [] = _
    unfold finishPreview
    rw [hsize, hft]
    simp [hopen, hseek]
  · show (match cacheGet (cacheInsert [] n (loadingPreview n)) n with
      | some p => some (p, cacheInsert [] n (loadingPreview n), none)
      | none => finishPreview fs n (cacheInsert [] n (loadingPreview n))) = _
    rw [cacheGet_insert_self]

theorem preview_dedup_serialized_witness :
    (coldTextFs.size.map (fun sz => decide (MAX_FILE_SIZE < sz))).getD false =
      false ∧
    getFileType coldTextFs = FileType.text ∧
    coldTextFs.openOk = true ∧ coldTextFs.seekOk = true ∧
    (preview coldTextFs "e" [] =
      some (loadingPreview "e", cacheInsert [] "e" (loadingPreview "e"),
        some "e") ∧
     preview coldTextFs "e" (cacheInsert [] "e" (loadingPreview "e")) =
      some (loadingPreview "e", cacheInsert [] "e" (loadingPreview "e"),
        none)) :=
  ⟨by decide, by decide, by decide, by decide,
   preview_dedup_serialized coldTextFs "e" (by decide) (by decide)
     (by decide) (by decide)⟩

/-- **C3**: terminal cached previews are stable: in any reachable state, no
step — later `preview` call or background-task completion — replaces a
cached terminal preview for an identifier, and a `preview` call finding a
cached terminal preview returns exactly it, leaving the cache unchanged and
spawning nothing. -/
theorem terminal_preview_stable (fsOf : String → FsEntry) (s s' : Sys)
    (n : String) (p : Preview) (hr : Reach fsOf s) (hst : Step fsOf s s')
    (hc : cacheGet s.cache n = some p) (ht : p.isTerminal = true) :
    cacheGet s'.cache n = some p ∧
    preview (fsOf n) n s.cache = some (p, s.cache, none) := by
  obtain ⟨ha, hb, hcv⟩ := reach_sysInv fsOf s hr
  constructor
  · cases hst with
    | previewHit m q hfree hget => exact hc
    | previewMiss m hfree hget => exact hc
    | previewFinish m q c' t hin hfin =>
      obtain ⟨hgm, _⟩ := hcv m hin
      obtain ⟨rfl, _⟩ := finishPreview_spec _ _ _ _ _ _ hfin
      have hmn : m ≠ n := by
        intro he
        subst he
        rw [hc] at hgm
        exact Option.noConfusion hgm
      rw [cacheGet_insert_ne _ _ _ _ hmn]
      exact hc
    | taskDone m hmem =>
      have hlm := ha m hmem
      have hmn : m ≠ n := by
        intro he
        subst he
        rw [hc] at hlm
        have : p = loadingPreview m := Option.some.inj hlm
        rw [this] at ht
        simp [Preview.isTerminal, loadingPreview] at ht
      rw [runTask, cacheGet_insert_ne _ _ _ _ hmn]
      exact hc
  · unfold preview
    rw [hc]

theorem terminal_preview_stable_witness :
    cacheGet [("e", fileTooLargePreview "e")] "e" =
      some (fileTooLargePreview "e") ∧
    (fileTooLargePreview "e").isTerminal = true ∧
    (cacheGet (Sys.mk [("e", fileTooLargePreview "e")] [] none).cache "e" =
       some (fileTooLargePreview "e") ∧
     preview bigFileFs "e" [("e", fileTooLargePreview "e")] =
       some (fileTooLargePreview "e", [("e", fileTooLargePreview "e")],
         none)) :=
  ⟨by decide, by decide,
   terminal_preview_stable (fun _ => bigFileFs)
     (Sys.mk [("e", fileTooLargePreview "e")] [] none)
     (Sys.mk [("e", fileTooLargePreview "e")] [] none)
     "e" (fileTooLargePreview "e")
     (Reach.step _ _
       (Reach.step _ _ Reach.init
         (Step.previewMiss initSys "e" rfl rfl))
       (Step.previewFinish (Sys.mk [] [] (some "e")) "e"
         (fileTooLargePreview "e") [("e", fileTooLargePreview "e")] none
         rfl (by decide)))
     (Step.previewHit (Sys.mk [("e", fileTooLargePreview "e")] [] none)
       "e" (fileTooLargePreview "e") rfl (by decide))
     (by decide) (by decide)⟩

/-!
## Claim theorems: text sanitizer
-/

/-- **C4 counterexample**: the division in
`proportion_of_printable_ascii_characters` is unguarded, so the empty
buffer computes `0.0 / 0.0`, which is NaN — not the `0.0` the claim
requires. -/
theorem printable_ratio_empty_nan :
    (proportion_of_printable_ascii_characters []).isNaN = true ∧
    proportion_of_printable_ascii_characters [] ≠ ⟨false, 0⟩ := by
  exact ⟨rfl, by decide⟩

/-- **C4 (amended)**: the empty buffer yields NaN (unguarded `0.0 / 0.0`);
for every non-empty buffer the result is the non-NaN fraction of bytes in
`[0x20, 0x7F)` over the total byte count. -/
theorem printable_ratio_nonempty (buffer : List Nat) (h : buffer ≠ []) :
    (proportion_of_printable_ascii_characters buffer).isNaN = false ∧
    (proportion_of_printable_ascii_characters buffer).val =
      (buffer.countP printableAscii : ℚ) / (buffer.length : ℚ) := by
  have hlen : buffer.length ≠ 0 := fun he => h (List.length_eq_zero.mp he)
  unfold proportion_of_printable_ascii_characters f32div
  rw [if_neg hlen]
  exact ⟨rfl, rfl⟩

theorem printable_ratio_nonempty_witness :
    ([72, 105] : List Nat) ≠ [] ∧
    ((proportion_of_printable_ascii_characters [72, 105]).isNaN = false ∧
     (proportion_of_printable_ascii_characters [72, 105]).val =
       (([72, 105] : List Nat).countP printableAscii : ℚ) /
         (([72, 105] : List Nat).length : ℚ)) :=
  ⟨by decide, printable_ratio_nonempty [72, 105] (by decide)⟩

theorem hexDigit_range (d : Nat) (h : d < 16) :
    0x30 ≤ hexDigit d ∧ hexDigit d ≤ 0x46 := by
  unfold hexDigit
  split_ifs <;> omega

/-- Every code point `charOut` emits is printable-safe: at or above space
and outside `[0x7F, 0x9F]`. -/
theorem charOut_safe (c tw x : Nat) (hx : x ∈ charOut c tw) :
    0x20 ≤ x ∧ ¬(0x7F ≤ x ∧ x ≤ 0x9F) := by
  unfold charOut at hx
  split_ifs at hx with h1 h2 h3 h4 h5 h6
  · simp only [List.mem_singleton] at hx
    omega
  · rw [List.eq_of_mem_replicate hx]
    omega
  · simp at hx
  · simp only [List.mem_singleton] at hx
    omega
  · simp at hx
  · simp only [List.mem_singleton] at hx
    omega
  · simp only [List.mem_singleton] at hx
    subst hx
    simp only [Bool.or_eq_true, Bool.and_eq_true, decide_eq_true_eq,
      not_or, not_and] at h4
    omega

/-- Every code point `escBytes` emits for a byte is printable-safe. -/
theorem escBytes_safe (b x : Nat) (hb : b < 256) (hx : x ∈ escBytes b) :
    0x20 ≤ x ∧ ¬(0x7F ≤ x ∧ x ≤ 0x9F) := by
  unfold escBytes at hx
  have h1 := hexDigit_range (b / 16) (by omega)
  have h2 := hexDigit_range (b % 16) (by omega)
  simp only [List.mem_cons, List.mem_singleton, List.not_mem_nil,
    or_false] at hx
  rcases hx with rfl | rfl | rfl | rfl <;> omega

theorem rnpF_safe (fuel : Nat) (input : List Nat) (tw : Nat)
    (hb : ∀ b ∈ input, b < 256) (x : Nat) (hx : x ∈ rnpF fuel input tw) :
    0x20 ≤ x ∧ ¬(0x7F ≤ x ∧ x ≤ 0x9F) := by
  induction fuel generalizing input with
  | zero => simp [rnpF] at hx
  | succ fuel ih =>
    cases input with
    | nil => simp [rnpF] at hx
    | cons b rest =>
      rw [rnpF] at hx
      cases hd : decodeFront b rest with
      | some ck =>
        obtain ⟨c, k⟩ := ck
        rw [hd] at hx
        simp only [List.mem_append] at hx
        rcases hx with hx | hx
        · exact charOut_safe c tw x hx
        · exact ih (rest.drop k)
            (fun y hy =>
              hb y (List.mem_cons_of_mem b (List.mem_of_mem_drop hy))) hx
      | none =>
        rw [hd] at hx
        simp only [List.mem_append] at hx
        rcases hx with hx | hx
        · exact escBytes_safe b x (hb b (List.mem_cons_self b rest)) hx
        · exact ih rest (fun y hy => hb y (List.mem_cons_of_mem b hy)) hx

/-- **C10**: for every byte buffer and tab width, the sanitized output
contains no character in `U+0000`–`U+001F` or `U+007F`–`U+009F` (every
output code point is at or above the space character and outside the
second control range); tabs expand to spaces, line feeds and the BOM are
dropped per the `charOut` arms. -/
theorem sanitizer_output_terminal_safe (input : List Nat) (tw : Nat)
    (hb : ∀ b ∈ input, b < 256) :
    (∀ x ∈ replace_non_printable input tw,
      0x20 ≤ x ∧ ¬(x ≤ 0x1F) ∧ ¬(0x7F ≤ x ∧ x ≤ 0x9F)) ∧
    charOut 0x09 tw = List.replicate tw 0x20 ∧
    charOut 0x0A tw = [] ∧
    charOut 0xFEFF tw = [] ∧
    (∀ c, 0x700 < c → c ≠ 0xFEFF → charOut c tw = [0x2400]) := by
  refine ⟨?_, rfl, rfl, rfl, ?_⟩
  · intro x hx
    have h := rnpF_safe input.length input tw hb x hx
    exact ⟨h.1, by omega, h.2⟩
  · intro c hc hne
    unfold charOut
    split_ifs with h1 h2 h3 h4
    · omega
    · omega
    · omega
    · simp only [Bool.or_eq_true, Bool.and_eq_true, decide_eq_true_eq]
        at h4
      omega
    · rfl

theorem sanitizer_output_terminal_safe_witness :
    (∀ b ∈ ([9, 200, 65] : List Nat), b < 256) ∧
    ((∀ x ∈ replace_non_printable [9, 200, 65] 4,
       0x20 ≤ x ∧ ¬(x ≤ 0x1F) ∧ ¬(0x7F ≤ x ∧ x ≤ 0x9F)) ∧
     charOut 0x09 4 = List.replicate 4 0x20 ∧
     charOut 0x0A 4 = [] ∧
     charOut 0xFEFF 4 = [] ∧
     (∀ c, 0x700 < c → c ≠ 0xFEFF → charOut c 4 = [0x2400])) :=
  ⟨by decide, sanitizer_output_terminal_safe [9, 200, 65] 4 (by decide)⟩

theorem decodeFront_ascii (b : Nat) (rest : List Nat) (h : b ≤ 0x7F) :
    decodeFront b rest = some (b, 0) := by
  unfold decodeFront
  rw [if_pos h]

/-- On printable non-space, non-control ASCII, `charOut` is the identity;
together with the space arm this covers all of `[0x20, 0x7E]`. -/
theorem charOut_printable (c tw : Nat) (h1 : 0x20 ≤ c) (h2 : c ≤ 0x7E) :
    charOut c tw = [c] := by
  unfold charOut
  split_ifs with g1 g2 g3 g4 g5 g6
  · rw [g1]
  · omega
  · omega
  · simp only [Bool.or_eq_true, Bool.and_eq_true, decide_eq_true_eq] at g4
    omega
  · omega
  · simp only [decide_eq_true_eq] at g6
    omega
  · rfl

/-- The sanitizer is the identity on printable-ASCII byte lists. -/
theorem rnpF_printable_id (fuel : Nat) (x : List Nat) (tw : Nat)
    (hf : x.length ≤ fuel) (hp : ∀ b ∈ x, 0x20 ≤ b ∧ b ≤ 0x7E) :
    rnpF fuel x tw = x := by
  induction fuel generalizing x with
  | zero =>
    have hx : x = [] := List.length_eq_zero.mp (Nat.le_zero.mp hf)
    subst hx
    rfl
  | succ fuel ih =>
    cases x with
    | nil => rfl
    | cons b rest =>
      obtain ⟨hb1, hb2⟩ := hp b (List.mem_cons_self b rest)
      rw [rnpF, decodeFront_ascii b rest (by omega)]
      simp only [List.drop_zero]
      rw [charOut_printable b tw hb1 hb2,
        ih rest (by simpa using Nat.succ_le_succ_iff.mp hf)
          (fun y hy => hp y (List.mem_cons_of_mem b hy))]
      rfl

/-- Re-reading a pure-ASCII code-point string as bytes is the identity. -/
theorem strBytes_ascii (x : List Nat) (h : ∀ b ∈ x, b < 0x80) :
    strBytes x = x := by
  induction x with
  | nil => rfl
  | cons b rest ih =>
    have hb := h b (List.mem_cons_self b rest)
    simp only [strBytes, List.map_cons, List.flatten_cons]
    rw [utf8EncodeChar, if_pos hb]
    have : strBytes rest = rest :=
      ih (fun y hy => h y (List.mem_cons_of_mem b hy))
    simp only [strBytes] at this
    rw [this]
    rfl

/-- **C9**: `replace_non_printable` is idempotent on printable-ASCII input:
for any tab width and any byte list of printable ASCII (no control
characters), sanitizing the sanitized output (re-read as bytes) equals
sanitizing once. -/
theorem sanitize_idempotent_printable (x : List Nat) (tw : Nat)
    (hp : ∀ b ∈ x, 0x20 ≤ b ∧ b ≤ 0x7E) :
    replace_non_printable (strBytes (replace_non_printable x tw)) tw =
      replace_non_printable x tw := by
  have h1 : replace_non_printable x tw = x :=
    rnpF_printable_id x.length x tw le_rfl hp
  rw [h1, strBytes_ascii x (fun b hb => by have := hp b hb; omega), h1]

theorem sanitize_idempotent_printable_witness :
    (∀ b ∈ ([72, 105, 33] : List Nat), 0x20 ≤ b ∧ b ≤ 0x7E) ∧
    replace_non_printable
        (strBytes (replace_non_printable [72, 105, 33] 4)) 4 =
      replace_non_printable [72, 105, 33] 4 :=
  ⟨by decide, sanitize_idempotent_printable [72, 105, 33] 4 (by decide)⟩

/-!
## Character-boundary lemmas
-/

theorem isCharBoundary_zero (s : List Nat) : isCharBoundary s 0 = true :=
  rfl

theorem isCharBoundary_length (s : List Nat) :
    isCharBoundary s s.length = true := by
  unfold isCharBoundary
  split_ifs with h
  · rfl
  · rw [List.get?_eq_none.mpr le_rfl]
    simp

theorem isCharBoundary_gt_length (s : List Nat) (i : Nat)
    (h : s.length < i) : isCharBoundary s i = false := by
  unfold isCharBoundary
  rw [if_neg (by omega), List.get?_eq_none.mpr (by omega)]
  simp
  omega

theorem isCharBoundary_le_length (s : List Nat) (i : Nat)
    (h : isCharBoundary s i = true) : i ≤ s.length := by
  by_contra hlt
  rw [isCharBoundary_gt_length s i (by omega)] at h
  exact Bool.noConfusion h

theorem isCharBoundary_of_get (s : List Nat) (i b : Nat)
    (hg : s.get? i = some b) (hb : contByte b = false) :
    isCharBoundary s i = true := by
  unfold isCharBoundary
  split_ifs with h
  · rfl
  · rw [hg]
    simp [hb]

theorem ncbF_ge (fuel : Nat) (s : List Nat) (i : Nat) :
    i ≤ ncbF fuel s i := by
  induction fuel generalizing i with
  | zero => exact le_rfl
  | succ fuel ih =>
    rw [ncbF]
    split_ifs with h
    · exact le_trans (by omega) (ih (i + 1))
    · exact le_rfl

theorem ncbF_stop (fuel : Nat) (s : List Nat) (i : Nat)
    (h : isCharBoundary s i = true) : ncbF fuel s i = i := by
  cases fuel with
  | zero => rfl
  | succ fuel => simp [ncbF, h]

theorem ncbF_boundary (fuel : Nat) (s : List Nat) (i : Nat)
    (hle : i ≤ s.length) (hf : s.length ≤ i + fuel) :
    isCharBoundary s (ncbF fuel s i) = true := by
  induction fuel generalizing i with
  | zero =>
    have : i = s.length := by omega
    subst this
    exact isCharBoundary_length s
  | succ fuel ih =>
    rw [ncbF]
    split_ifs with h
    · simp only [Bool.and_eq_true, Bool.not_eq_true, decide_eq_true_eq]
        at h
      exact ih (i + 1) (by omega) (by omega)
    · simp only [Bool.and_eq_true, Bool.not_eq_true, decide_eq_true_eq,
        not_and] at h
      by_cases hbi : isCharBoundary s i = true
      · exact hbi
      · have hbf : isCharBoundary s i = false := by
          simpa using hbi
        have hnl := h (by simp [hbf])
        have hieq : i = s.length := by omega
        rw [hieq]
        exact isCharBoundary_length s

theorem ncbF_le_length (fuel : Nat) (s : List Nat) (i : Nat)
    (hle : i ≤ s.length) : ncbF fuel s i ≤ s.length := by
  induction fuel generalizing i with
  | zero => exact hle
  | succ fuel ih =>
    rw [ncbF]
    split_ifs with h
    · simp only [Bool.and_eq_true, decide_eq_true_eq] at h
      exact ih (i + 1) (by omega)
    · exact hle

theorem ncbF_min (fuel : Nat) (s : List Nat) (i j : Nat) (hij : i ≤ j)
    (hbj : isCharBoundary s j = true) : ncbF fuel s i ≤ j := by
  induction fuel generalizing i with
  | zero => exact hij
  | succ fuel ih =>
    rw [ncbF]
    split_ifs with h
    · simp only [Bool.and_eq_true, Bool.not_eq_true, decide_eq_true_eq]
        at h
      refine ih (i + 1) ?_
      rcases Nat.eq_or_lt_of_le hij with rfl | hlt
      · rw [hbj] at h
        exact absurd h.1 (by simp)
      · omega
    · exact hij

theorem next_char_boundary_boundary (s : List Nat) (i : Nat) :
    isCharBoundary s (next_char_boundary s i) = true := by
  unfold next_char_boundary
  split_ifs with h
  · exact isCharBoundary_length s
  · exact ncbF_boundary _ s i (by omega) (by omega)

theorem next_char_boundary_clamp (s : List Nat) (i : Nat)
    (h : s.length ≤ i) : next_char_boundary s i = s.length := by
  unfold next_char_boundary
  rw [if_pos (by omega)]

theorem next_char_boundary_ge (s : List Nat) (i : Nat) (h : i ≤ s.length) :
    i ≤ next_char_boundary s i := by
  unfold next_char_boundary
  split_ifs with hc
  · omega
  · exact ncbF_ge _ s i

theorem next_char_boundary_le_length (s : List Nat) (i : Nat) :
    next_char_boundary s i ≤ s.length := by
  unfold next_char_boundary
  split_ifs with hc
  · exact le_rfl
  · exact ncbF_le_length _ s i (by omega)

theorem next_char_boundary_min (s : List Nat) (i j : Nat) (hij : i ≤ j)
    (hbj : isCharBoundary s j = true) : next_char_boundary s i ≤ j := by
  unfold next_char_boundary
  split_ifs with hc
  · have := isCharBoundary_le_length s j hbj
    omega
  · exact ncbF_min _ s i j hij hbj

theorem next_char_boundary_of_boundary (s : List Nat) (i : Nat)
    (h : isCharBoundary s i = true) :
    next_char_boundary s i = min i s.length := by
  unfold next_char_boundary
  split_ifs with hc
  · omega
  · rw [ncbF_stop _ s i h]
    omega

theorem pcbF_le (fuel : Nat) (s : List Nat) (i : Nat) :
    pcbF fuel s i ≤ i := by
  induction fuel generalizing i with
  | zero => exact le_rfl
  | succ fuel ih =>
    rw [pcbF]
    split_ifs with h
    · exact le_trans (ih (i - 1)) (by omega)
    · exact le_rfl

theorem pcbF_boundary (fuel : Nat) (s : List Nat) (i : Nat)
    (hf : i ≤ fuel) : isCharBoundary s (pcbF fuel s i) = true := by
  induction fuel generalizing i with
  | zero =>
    have : i = 0 := by omega
    subst this
    exact isCharBoundary_zero s
  | succ fuel ih =>
    rw [pcbF]
    split_ifs with h
    · simp only [Bool.and_eq_true, decide_eq_true_eq] at h
      exact ih (i - 1) (by omega)
    · simp only [Bool.and_eq_true, Bool.not_eq_true, decide_eq_true_eq,
        not_and] at h
      by_cases hbi : isCharBoundary s i = true
      · exact hbi
      · have hbf : isCharBoundary s i = false := by
          simpa using hbi
        have hnz := h (by simp [hbf])
        have hieq : i = 0 := by omega
        rw [hieq]
        exact isCharBoundary_zero s

theorem pcbF_max (fuel : Nat) (s : List Nat) (i j : Nat) (hji : j ≤ i)
    (hbj : isCharBoundary s j = true) : j ≤ pcbF fuel s i := by
  induction fuel generalizing i with
  | zero => exact hji
  | succ fuel ih =>
    rw [pcbF]
    split_ifs with h
    · simp only [Bool.and_eq_true, Bool.not_eq_true, decide_eq_true_eq]
        at h
      refine ih (i - 1) ?_
      rcases Nat.eq_or_lt_of_le hji with rfl | hlt
      · rw [hbj] at h
        exact absurd h.1 (by simp)
      · omega
    · exact hji

theorem pcbF_clamp (fuel : Nat) (s : List Nat) (i : Nat) (hf : i ≤ fuel)
    (h : s.length ≤ i) : pcbF fuel s i = s.length := by
  induction fuel generalizing i with
  | zero =>
    have hieq : i = 0 := by omega
    subst hieq
    show (0 : Nat) = s.length
    omega
  | succ fuel ih =>
    rcases Nat.eq_or_lt_of_le h with heq | hlt
    · rw [pcbF, ← heq]
      simp [isCharBoundary_length s]
    · rw [pcbF, if_pos (by
        rw [isCharBoundary_gt_length s i hlt]
        simp
        omega)]
      exact ih (i - 1) (by omega) (by omega)

theorem prev_char_boundary_boundary (s : List Nat) (i : Nat) :
    isCharBoundary s (prev_char_boundary s i) = true :=
  pcbF_boundary i s i le_rfl

theorem prev_char_boundary_le (s : List Nat) (i : Nat) :
    prev_char_boundary s i ≤ i :=
  pcbF_le i s i

theorem prev_char_boundary_max (s : List Nat) (i j : Nat) (hji : j ≤ i)
    (hbj : isCharBoundary s j = true) : j ≤ prev_char_boundary s i :=
  pcbF_max i s i j hji hbj

theorem prev_char_boundary_clamp (s : List Nat) (i : Nat)
    (h : s.length ≤ i) : prev_char_boundary s i = s.length :=
  pcbF_clamp i s i le_rfl h

theorem prev_char_boundary_zero (s : List Nat) :
    prev_char_boundary s 0 = 0 :=
  rfl

theorem next_char_boundary_zero (s : List Nat) :
    next_char_boundary s 0 = 0 := by
  have h := next_char_boundary_of_boundary s 0 (isCharBoundary_zero s)
  simpa using h

/-- The 👋🌍! test string from the `strings.rs` doctests:
two four-byte emoji followed by `!`. -/
def emojiBytes : List Nat :=
  [0xF0, 0x9F, 0x91, 0x8B, 0xF0, 0x9F, 0x8C, 0x8D, 0x21]

/-- **C8**: `next_char_boundary` returns the nearest character boundary at
or after the offset and `prev_char_boundary` the nearest boundary at or
before it; for both, offsets at or past the byte length clamp to the
length, and offset `0` maps to `0`. -/
theorem char_boundary_nearest (s : List Nat) (i : Nat)
    (_hv : validUtf8 s = true) :
    (isCharBoundary s (next_char_boundary s i) = true ∧
     isCharBoundary s (prev_char_boundary s i) = true) ∧
    (i ≤ s.length →
      i ≤ next_char_boundary s i ∧
      ∀ j, i ≤ j → isCharBoundary s j = true →
        next_char_boundary s i ≤ j) ∧
    (s.length ≤ i → next_char_boundary s i = s.length) ∧
    (prev_char_boundary s i ≤ i ∧
     ∀ j, j ≤ i → isCharBoundary s j = true →
       j ≤ prev_char_boundary s i) ∧
    (s.length ≤ i → prev_char_boundary s i = s.length) ∧
    (next_char_boundary s 0 = 0 ∧ prev_char_boundary s 0 = 0) :=
  ⟨⟨next_char_boundary_boundary s i, prev_char_boundary_boundary s i⟩,
   fun h => ⟨next_char_boundary_ge s i h,
     fun j hij hbj => next_char_boundary_min s i j hij hbj⟩,
   fun h => next_char_boundary_clamp s i h,
   ⟨prev_char_boundary_le s i,
    fun j hji hbj => prev_char_boundary_max s i j hji hbj⟩,
   fun h => prev_char_boundary_clamp s i h,
   next_char_boundary_zero s, prev_char_boundary_zero s⟩

theorem char_boundary_nearest_witness :
    validUtf8 emojiBytes = true ∧
    ((isCharBoundary emojiBytes (next_char_boundary emojiBytes 6) = true ∧
      isCharBoundary emojiBytes (prev_char_boundary emojiBytes 6) = true) ∧
     (6 ≤ emojiBytes.length →
       6 ≤ next_char_boundary emojiBytes 6 ∧
       ∀ j, 6 ≤ j → isCharBoundary emojiBytes j = true →
         next_char_boundary emojiBytes 6 ≤ j) ∧
     (emojiBytes.length ≤ 6 → next_char_boundary emojiBytes 6 =
       emojiBytes.length) ∧
     (prev_char_boundary emojiBytes 6 ≤ 6 ∧
      ∀ j, j ≤ 6 → isCharBoundary emojiBytes j = true →
        j ≤ prev_char_boundary emojiBytes 6) ∧
     (emojiBytes.length ≤ 6 → prev_char_boundary emojiBytes 6 =
       emojiBytes.length) ∧
     (next_char_boundary emojiBytes 0 = 0 ∧
      prev_char_boundary emojiBytes 0 = 0)) :=
  ⟨by decide, char_boundary_nearest emojiBytes 6 (by decide)⟩

/-- `dropWhile` for the trailing-trim predicate is the identity on lists of
bytes at or above the space character. -/
theorem dropWhile_trim_printable (l : List Nat)
    (h : ∀ b ∈ l, 0x20 ≤ b) :
    l.dropWhile (fun b => b = 0x0D || b = 0x0A || b = 0x00) = l := by
  cases l with
  | nil => rfl
  | cons a t =>
    have ha := h a (List.mem_cons_self a t)
    rw [List.dropWhile_cons]
    rw [if_neg (by simp; omega)]

theorem trimEndCrLfNul_printable (s : List Nat)
    (h : ∀ b ∈ s, 0x20 ≤ b) : trimEndCrLfNul s = s := by
  unfold trimEndCrLfNul
  rw [dropWhile_trim_printable s.reverse
    (fun b hb => h b (List.mem_reverse.mp hb)), List.reverse_reverse]

set_option maxRecDepth 4000 in
/-- **C5 counterexample**: the result of `preprocess_line` is not bounded
by 300 bytes: sanitization happens after truncation and can expand — a
100-byte line of tabs becomes 400 spaces, 400 bytes. -/
theorem preprocess_line_not_byte_bounded :
    300 < (strBytes (preprocess_line (List.replicate 100 0x09))).length := by
  decide

/-- **C5 (amended)**: the line is truncated boundary-safely at the 300-byte
maximum before trailing-character stripping and sanitization, but the
*result* is only bounded when sanitization does not expand characters: on
printable-ASCII lines (no tabs or control bytes) the result is exactly
`min (length line) 300` bytes, hence at most 300. -/
theorem preprocess_line_printable_bound (line : List Nat)
    (hp : ∀ b ∈ line, 0x20 ≤ b ∧ b ≤ 0x7E) :
    (strBytes (preprocess_line line)).length = min line.length 300 := by
  by_cases hlen : line.length > MAX_LINE_LENGTH
  · have h3 : 300 < line.length := by
      simpa [MAX_LINE_LENGTH] using hlen
    have hb : isCharBoundary line 300 = true := by
      obtain ⟨b, hgb⟩ : ∃ b, line.get? 300 = some b :=
        ⟨_, List.get?_eq_get h3⟩
      have hmem : b ∈ line := List.get?_mem hgb
      have hpb := hp b hmem
      exact isCharBoundary_of_get line 300 b hgb
        (by simp only [contByte]; simp; omega)
    have hslice :
        slice_up_to_char_boundary line MAX_LINE_LENGTH = line.take 300 := by
      unfold slice_up_to_char_boundary
      rw [show MAX_LINE_LENGTH = 300 from rfl,
        next_char_boundary_of_boundary line 300 hb]
      congr 1
      omega
    rw [preprocess_line, if_pos hlen, hslice]
    have hpt : ∀ b ∈ line.take 300, 0x20 ≤ b ∧ b ≤ 0x7E :=
      fun b hbm => hp b (List.mem_of_mem_take hbm)
    rw [trimEndCrLfNul_printable _ (fun b hbm => (hpt b hbm).1),
      replace_non_printable,
      rnpF_printable_id _ _ TAB_WIDTH le_rfl hpt,
      strBytes_ascii _ (fun b hbm => by have := hpt b hbm; omega),
      List.length_take]
    omega
  · rw [preprocess_line, if_neg hlen,
      trimEndCrLfNul_printable _ (fun b hbm => (hp b hbm).1),
      replace_non_printable,
      rnpF_printable_id _ _ TAB_WIDTH le_rfl hp,
      strBytes_ascii _ (fun b hbm => by have := hp b hbm; omega)]
    simp only [MAX_LINE_LENGTH, gt_iff_lt, not_lt] at hlen
    omega

set_option maxRecDepth 8000 in
theorem preprocess_line_printable_bound_witness :
    (∀ b ∈ List.replicate 400 97, 0x20 ≤ b ∧ b ≤ 0x7E) ∧
    (strBytes (preprocess_line (List.replicate 400 97))).length =
      min (List.replicate 400 97).length 300 :=
  ⟨by decide, preprocess_line_printable_bound (List.replicate 400 97)
    (by decide)⟩

/-!
## UTF-8 validity under boundary slicing
-/

/-- Fuel irrelevance for `validUtf8F`: any fuel at or above the byte count
computes `validUtf8`. -/
theorem validUtf8F_eq (fuel : Nat) :
    ∀ l : List Nat, l.length ≤ fuel → validUtf8F fuel l = validUtf8 l := by
  induction fuel using Nat.strong_induction_on with
  | _ fuel ih =>
    intro l h
    cases fuel with
    | zero =>
      have hl : l = [] := List.length_eq_zero.mp (Nat.le_zero.mp h)
      subst hl
      rfl
    | succ fuel =>
      cases l with
      | nil => rfl
      | cons b rest =>
        unfold validUtf8
        simp only [List.length_cons, validUtf8F]
        cases hd : decodeFront b rest with
        | none => rfl
        | some ck =>
          obtain ⟨c, k⟩ := ck
          show validUtf8F fuel (rest.drop k) =
            validUtf8F rest.length (rest.drop k)
          have hdl : (rest.drop k).length ≤ rest.length := by
            rw [List.length_drop]
            omega
          have e1 := ih fuel (by omega) (rest.drop k)
            (by simp at h; omega)
          have e2 := ih rest.length (by simp at h; omega) (rest.drop k) hdl
          rw [e1, e2]

/-- Shape of a successfully decoded chunk: it consumes at most three bytes
of `rest`, all of them continuation bytes, and decoding only looks at
those bytes (prefix stability). -/
theorem decodeFront_chunk (b : Nat) (rest : List Nat) (c k : Nat)
    (h : decodeFront b rest = some (c, k)) :
    k ≤ 3 ∧ k ≤ rest.length ∧
    (∀ j, j < k → ∃ r, rest.get? j = some r ∧ contByte r = true) ∧
    (∀ t, decodeFront b (rest.take k ++ t) = some (c, k)) := by
  by_cases h1 : b ≤ 0x7F
  · unfold decodeFront at h
    rw [if_pos h1] at h
    obtain ⟨rfl, rfl⟩ : b = c ∧ 0 = k := by simpa using h
    refine ⟨by omega, by omega, fun j hj => absurd hj (by omega),
      fun t => ?_⟩
    unfold decodeFront
    rw [if_pos h1]
  · unfold decodeFront at h
    rw [if_neg h1] at h
    cases rest with
    | nil => split_ifs at h
    | cons x xs =>
      cases xs with
      | nil =>
        simp only [] at h
        split_ifs at h with h2 hx
        obtain ⟨rfl, rfl⟩ : (b - 0xC0) * 64 + (x - 0x80) = c ∧ 1 = k := by
          simpa using h
        refine ⟨by omega, by simp, ?_, fun t => ?_⟩
        · intro j hj
          interval_cases j
          exact ⟨x, rfl, hx⟩
        · unfold decodeFront
          simp [h1, h2, hx]
      | cons y ys =>
        cases ys with
        | nil =>
          simp only [] at h
          split_ifs at h with h2 hx h3 hg
          · obtain ⟨rfl, rfl⟩ :
                (b - 0xC0) * 64 + (x - 0x80) = c ∧ 1 = k := by
              simpa using h
            refine ⟨by omega, by simp, ?_, fun t => ?_⟩
            · intro j hj
              interval_cases j
              exact ⟨x, rfl, hx⟩
            · unfold decodeFront
              simp [h1, h2, hx]
          · obtain ⟨rfl, rfl⟩ :
                (b - 0xE0) * 4096 + (x - 0x80) * 64 + (y - 0x80) = c ∧
                  2 = k := by
              simpa using h
            simp only [Bool.and_eq_true, decide_eq_true_eq] at hg
            obtain ⟨⟨hxl, hxh⟩, hy⟩ := hg
            have hx : contByte x = true := cont3_contByte b x hxl hxh
            refine ⟨by omega, by simp, ?_, fun t => ?_⟩
            · intro j hj
              interval_cases j
              · exact ⟨x, rfl, hx⟩
              · exact ⟨y, rfl, hy⟩
            · unfold decodeFront
              simp [h1, h2, h3, hxl, hxh, hy]
        | cons z zs =>
          simp only [] at h
          split_ifs at h with h2 hx h3 hg h4 hg4
          · obtain ⟨rfl, rfl⟩ :
                (b - 0xC0) * 64 + (x - 0x80) = c ∧ 1 = k := by
              simpa using h
            refine ⟨by omega, by simp, ?_, fun t => ?_⟩
            · intro j hj
              interval_cases j
              exact ⟨x, rfl, hx⟩
            · unfold decodeFront
              simp [h1, h2, hx]
          · obtain ⟨rfl, rfl⟩ :
                (b - 0xE0) * 4096 + (x - 0x80) * 64 + (y - 0x80) = c ∧
                  2 = k := by
              simpa using h
            simp only [Bool.and_eq_true, decide_eq_true_eq] at hg
            obtain ⟨⟨hxl, hxh⟩, hy⟩ := hg
            have hx : contByte x = true := cont3_contByte b x hxl hxh
            refine ⟨by omega, by simp, ?_, fun t => ?_⟩
            · intro j hj
              interval_cases j
              · exact ⟨x, rfl, hx⟩
              · exact ⟨y, rfl, hy⟩
            · unfold decodeFront
              simp [h1, h2, h3, hxl, hxh, hy]
          · obtain ⟨rfl, rfl⟩ :
                (b - 0xF0) * 262144 + (x - 0x80) * 4096 + (y - 0x80) * 64 +
                  (z - 0x80) = c ∧ 3 = k := by
              simpa using h
            simp only [Bool.and_eq_true, decide_eq_true_eq] at hg4
            obtain ⟨⟨⟨hxl, hxh⟩, hy⟩, hz⟩ := hg4
            have hx : contByte x = true := cont4_contByte b x hxl hxh
            refine ⟨by omega, by simp, ?_, fun t => ?_⟩
            · intro j hj
              interval_cases j
              · exact ⟨x, rfl, hx⟩
              · exact ⟨y, rfl, hy⟩
              · exact ⟨z, rfl, hz⟩
            · unfold decodeFront
              simp [h1, h2, h3, h4, hxl, hxh, hy, hz]

/-- Prepending one decoded chunk to any tail preserves (in)validity of the
tail: `b :: rest.take k ++ t` is valid iff `t` is. -/
theorem valid_chunk_extend (b : Nat) (rest : List Nat) (c k : Nat)
    (t : List Nat) (hd : decodeFront b rest = some (c, k)) :
    validUtf8 (b :: (rest.take k ++ t)) = validUtf8 t := by
  obtain ⟨hk3, hkl, hcont, hstable⟩ := decodeFront_chunk b rest c k hd
  have htk : (rest.take k).length = k := by
    rw [List.length_take]
    omega
  unfold validUtf8
  simp only [List.length_cons, validUtf8F, hstable t]
  have hdrop : (rest.take k ++ t).drop k = t := by
    have hdl := List.drop_left (rest.take k) t
    rwa [htk] at hdl
  rw [hdrop, validUtf8F_eq (rest.take k ++ t).length t (by simp [htk]),
    validUtf8F_eq t.length t le_rfl]

/-- Splitting a valid UTF-8 byte list at a character boundary leaves two
valid halves. -/
theorem validUtf8_take_drop (n : Nat) :
    ∀ (s : List Nat), s.length ≤ n → validUtf8 s = true →
      ∀ i, isCharBoundary s i = true →
        validUtf8 (s.take i) = true ∧ validUtf8 (s.drop i) = true := by
  induction n with
  | zero =>
    intro s hn hv i hb
    have hs : s = [] := List.length_eq_zero.mp (Nat.le_zero.mp hn)
    subst hs
    have hi : i = 0 := by
      have := isCharBoundary_le_length [] i hb
      simpa using this
    subst hi
    exact ⟨hv, hv⟩
  | succ n ih =>
    intro s hn hv i hb
    cases s with
    | nil =>
      have hi : i = 0 := by
        have := isCharBoundary_le_length [] i hb
        simpa using this
      subst hi
      exact ⟨hv, hv⟩
    | cons b rest =>
      rcases Nat.eq_zero_or_pos i with rfl | hipos
      · exact ⟨rfl, hv⟩
      · obtain ⟨m, rfl⟩ : ∃ m, i = m + 1 := ⟨i - 1, by omega⟩
        unfold validUtf8 at hv
        simp only [List.length_cons, validUtf8F] at hv
        cases hd : decodeFront b rest with
        | none => rw [hd] at hv; exact Bool.noConfusion hv
        | some ck =>
          obtain ⟨c, k⟩ := ck
          rw [hd] at hv
          simp only [] at hv
          have hv' : validUtf8 (rest.drop k) = true := by
            rw [← validUtf8F_eq rest.length (rest.drop k)
              (by rw [List.length_drop]; omega)]
            exact hv
          obtain ⟨hk3, hkl, hcont, hstable⟩ :=
            decodeFront_chunk b rest c k hd
          -- the boundary cannot fall inside the chunk
          have hik : k ≤ m := by
            by_contra hcon
            obtain ⟨r, hgr, hcr⟩ := hcont m (by omega)
            have hgi : (b :: rest).get? (m + 1) = some r := by
              rw [List.get?_cons_succ]
              exact hgr
            unfold isCharBoundary at hb
            rw [if_neg (by omega), hgi] at hb
            simp [hcr] at hb
          have hkm : k + (m - k) = m := by omega
          -- transfer the boundary across the chunk
          have hb' : isCharBoundary (rest.drop k) (m - k) = true := by
            rcases Nat.eq_zero_or_pos (m - k) with hz | hpos
            · rw [hz]
              exact isCharBoundary_zero _
            · have hget : (rest.drop k).get? (m - k) =
                  (b :: rest).get? (m + 1) := by
                rw [List.get?_drop, hkm, List.get?_cons_succ]
              unfold isCharBoundary at hb ⊢
              rw [if_neg (by omega)] at hb
              rw [if_neg (by omega), hget]
              cases hgi : (b :: rest).get? (m + 1) with
              | some r =>
                rw [hgi] at hb
                simp only [] at hb ⊢
                exact hb
              | none =>
                rw [hgi] at hb
                simp only [List.length_cons, decide_eq_true_eq] at hb
                simp only [List.length_drop, decide_eq_true_eq]
                omega
          have hlen' : (rest.drop k).length ≤ n := by
            rw [List.length_drop]
            simp only [List.length_cons] at hn
            omega
          obtain ⟨htake', hdrop'⟩ :=
            ih (rest.drop k) hlen' hv' (m - k) hb'
          constructor
          · have hsplit : rest.take m =
                rest.take k ++ (rest.drop k).take (m - k) := by
              conv_lhs => rw [← hkm]
              exact List.take_add rest k (m - k)
            rw [List.take_succ_cons, hsplit,
              valid_chunk_extend b rest c k ((rest.drop k).take (m - k)) hd]
            exact htake'
          · have hds : (b :: rest).drop (m + 1) =
                (rest.drop k).drop (m - k) := by
              rw [List.drop_succ_cons, List.drop_drop, hkm]
            rw [hds]
            exact hdrop'

/-- A boundary of `s` at or below a boundary-truncation point `q ≤ length`
is also a boundary of `s.take q`. -/
theorem isCharBoundary_take (s : List Nat) (q p : Nat) (hpq : p ≤ q)
    (hql : q ≤ s.length) (hb : isCharBoundary s p = true) :
    isCharBoundary (s.take q) p = true := by
  rcases Nat.eq_zero_or_pos p with rfl | hpos
  · exact isCharBoundary_zero _
  rcases Nat.lt_or_ge p q with hlt | hge
  · have hpl : p < s.length := by omega
    obtain ⟨r, hgr⟩ : ∃ r, s.get? p = some r := ⟨_, List.get?_eq_get hpl⟩
    have hgt : (s.take q).get? p = some r := by
      rw [List.get?_take hlt, hgr]
    unfold isCharBoundary at hb ⊢
    rw [if_neg (by omega)] at hb
    rw [if_neg (by omega), hgt]
    rw [hgr] at hb
    exact hb
  · have hpq2 : p = q := by omega
    subst hpq2
    have hlen : (s.take p).length = p := by
      rw [List.length_take]
      omega
    have hend := isCharBoundary_length (s.take p)
    rwa [hlen] at hend

/-- **C6**: `slice_at_char_boundaries` never panics (the raw slice it
takes always satisfies the Rust slice precondition), its result is always
valid UTF-8, it returns the empty string whenever `start > end` or either
offset exceeds the byte length, and otherwise it returns the bytes between
the boundary-corrected offsets. -/
theorem safe_slice_spec (s : List Nat) (a b : Nat)
    (hv : validUtf8 s = true) :
    (∃ t, slice_at_char_boundaries s a b = some t ∧ validUtf8 t = true) ∧
    (a > b ∨ a > s.length ∨ b > s.length →
      slice_at_char_boundaries s a b = some []) ∧
    (a ≤ b → b ≤ s.length →
      slice_at_char_boundaries s a b =
        some ((s.take (next_char_boundary s b)).drop
          (prev_char_boundary s a))) := by
  by_cases hg : a > b ∨ a > s.length ∨ b > s.length
  · have heq : slice_at_char_boundaries s a b = some [] := by
      unfold slice_at_char_boundaries
      rw [if_pos (by
        simp only [Bool.or_eq_true, decide_eq_true_eq]
        tauto)]
    refine ⟨⟨[], heq, rfl⟩, fun _ => heq, fun hab hbl => ?_⟩
    rcases hg with h | h | h <;> omega
  · push_neg at hg
    obtain ⟨hab, hal, hbl⟩ := hg
    have heq : slice_at_char_boundaries s a b =
        rustSlice s (prev_char_boundary s a) (next_char_boundary s b) := by
      unfold slice_at_char_boundaries
      rw [if_neg (by
        simp only [Bool.or_eq_true, decide_eq_true_eq]
        push_neg
        exact ⟨⟨hab, hal⟩, hbl⟩)]
    have hbp := prev_char_boundary_boundary s a
    have hbq := next_char_boundary_boundary s b
    have hpa := prev_char_boundary_le s a
    have hqb := next_char_boundary_ge s b hbl
    have hql := next_char_boundary_le_length s b
    have hpq : prev_char_boundary s a ≤ next_char_boundary s b := by omega
    have hrs : rustSlice s (prev_char_boundary s a)
        (next_char_boundary s b) =
        some ((s.take (next_char_boundary s b)).drop
          (prev_char_boundary s a)) := by
      unfold rustSlice
      rw [if_pos (by
        simp only [Bool.and_eq_true, decide_eq_true_eq]
        exact ⟨⟨⟨hpq, hql⟩, hbp⟩, hbq⟩)]
    have hvq : validUtf8 (s.take (next_char_boundary s b)) = true :=
      (validUtf8_take_drop s.length s le_rfl hv _ hbq).1
    have hbp2 : isCharBoundary (s.take (next_char_boundary s b))
        (prev_char_boundary s a) = true :=
      isCharBoundary_take s _ _ hpq hql hbp
    have hvt : validUtf8 ((s.take (next_char_boundary s b)).drop
        (prev_char_boundary s a)) = true :=
      (validUtf8_take_drop (s.take (next_char_boundary s b)).length _
        le_rfl hvq _ hbp2).2
    refine ⟨⟨_, by rw [heq, hrs], hvt⟩, fun hcon => ?_,
      fun hab2 hbl2 => by rw [heq, hrs]⟩
    rcases hcon with h | h | h <;> omega

theorem safe_slice_spec_witness :
    validUtf8 emojiBytes = true ∧
    ((∃ t, slice_at_char_boundaries emojiBytes 0 5 = some t ∧
        validUtf8 t = true) ∧
     (0 > 5 ∨ 0 > emojiBytes.length ∨ 5 > emojiBytes.length →
       slice_at_char_boundaries emojiBytes 0 5 = some []) ∧
     (0 ≤ 5 → 5 ≤ emojiBytes.length →
       slice_at_char_boundaries emojiBytes 0 5 =
         some ((emojiBytes.take (next_char_boundary emojiBytes 5)).drop
           (prev_char_boundary emojiBytes 0)))) :=
  ⟨by decide, safe_slice_spec emojiBytes 0 5 (by decide)⟩

end Tv
